import Mathlib

/-!
Shallow embedding of the signature-service repository
(andressep95/signature-service) for specification checking.

The embedded code comes from:
- internal/service (AWSSigner): uriEncode, buildCanonicalQueryString,
  buildFinalQueryString, getSignatureKey, hash, hmacSHA256, hmacSHA256Hex,
  GeneratePresignedPutURL;
- internal/config: LoadConfig / getEnv;
- internal/service (S3Service): SearchObjectByFilename.

Modelling conventions:
- Go strings are Lean Strings; a Go rune is a Lean Char; Go byte slices are
  List Nat with entries below 256.
- Go map iteration/insertion is modelled by association lists with
  replace-on-duplicate insertion; map key sorting uses a lexicographic sort,
  matching sort.Strings on the ASCII data this service produces.
- time.Now is a parameter (GoTime), sampled once, as in the source.
- unicode.ToLower is modelled on the ASCII range (identity elsewhere); the
  header names this service builds are ASCII.
-/

namespace SigV4

/-- Space test used by strings.TrimSpace and strings.Fields
(the unicode.IsSpace set). -/
def isGoSpace (c : Char) : Bool :=
  let n := c.toNat
  (9 ≤ n && n ≤ 13) || n == 32 || n == 0x85 || n == 0xA0 ||
  n == 0x1680 || (0x2000 ≤ n && n ≤ 0x200A) || n == 0x2028 || n == 0x2029 ||
  n == 0x202F || n == 0x205F || n == 0x3000

/-- Uppercase hexadecimal digit for a value below 16. -/
def hexDigitUpper (n : Nat) : Char :=
  if n < 10 then Char.ofNat (48 + n) else Char.ofNat (55 + n)

/-- Lowercase hexadecimal digit for a value below 16. -/
def hexDigitLower (n : Nat) : Char :=
  if n < 10 then Char.ofNat (48 + n) else Char.ofNat (87 + n)

/-- Uppercase hexadecimal digits of a number (no padding), as produced by
the %X verb of fmt.Sprintf. -/
def natToHexUpper (n : Nat) : List Char :=
  (Nat.toDigits 16 n).map Char.toUpper

/-- Left-pad a digit list with zeros to width 2, as the %02X verb does. -/
def pad2 (l : List Char) : List Char :=
  if l.length < 2 then List.replicate (2 - l.length) '0' ++ l else l

/-- Rune classification used by AWSSigner.uriEncode: the comparisons are on
the rune value, exactly as in the Go source. -/
def isUnreservedRune (r : Char) : Bool :=
  (65 ≤ r.toNat && r.toNat ≤ 90) || (97 ≤ r.toNat && r.toNat ≤ 122) ||
  (48 ≤ r.toNat && r.toNat ≤ 57) ||
  r == '_' || r == '-' || r == '~' || r == '.'

/-- One loop iteration of AWSSigner.uriEncode: the Go code ranges over the
RUNES of the input and escapes the rune value with %02X. -/
def uriEncodeRune (encodeSlash : Bool) (r : Char) : List Char :=
  if isUnreservedRune r then [r]
  else if r == '/' && !encodeSlash then ['/']
  else '%' :: pad2 (natToHexUpper r.toNat)

/-- AWSSigner.uriEncode from internal/service: per-rune iteration
(for _, r := range input). -/
def uriEncode (input : String) (encodeSlash : Bool) : String :=
  String.mk (input.toList.foldr (fun r acc => uriEncodeRune encodeSlash r ++ acc) [])

/-- UTF-8 encoding of one scalar value, as a list of byte values. -/
def utf8Bytes (c : Char) : List Nat :=
  let n := c.toNat
  if n < 0x80 then [n]
  else if n < 0x800 then [0xC0 + n / 0x40, 0x80 + n % 0x40]
  else if n < 0x10000 then
    [0xE0 + n / 0x1000, 0x80 + (n / 0x40) % 0x40, 0x80 + n % 0x40]
  else
    [0xF0 + n / 0x40000, 0x80 + (n / 0x1000) % 0x40,
     0x80 + (n / 0x40) % 0x40, 0x80 + n % 0x40]

/-- The byte slice of a Go string: its UTF-8 bytes. -/
def strBytes (s : String) : List Nat :=
  s.toList.foldr (fun c acc => utf8Bytes c ++ acc) []

/-- Byte classification of the unreserved set of the spec. -/
def isUnreservedByte (b : Nat) : Bool :=
  (65 ≤ b && b ≤ 90) || (97 ≤ b && b ≤ 122) || (48 ≤ b && b ≤ 57) ||
  b == 95 || b == 45 || b == 126 || b == 46

/-- Modelled from the spec (section 4.1): the claimed per-byte encoder,
escaping each UTF-8 byte of the input as an uppercase two-digit escape.
Written to compare with the per-rune uriEncode of the source. -/
def uriEncodeBytewise (input : String) (encodeSlash : Bool) : String :=
  String.mk ((strBytes input).foldr (fun b acc =>
    (if isUnreservedByte b then [Char.ofNat b]
     else if b == 47 && !encodeSlash then ['/']
     else '%' :: pad2 (natToHexUpper b)) ++ acc) [])

/-- ASCII lowercasing of one rune (strings.ToLower; the non-ASCII part of
the Unicode case table is not needed for the header names built here and is
modelled as the identity). -/
def goToLowerChar (c : Char) : Char :=
  if 65 ≤ c.toNat && c.toNat ≤ 90 then Char.ofNat (c.toNat + 32) else c

/-- strings.ToLower. -/
def goToLower (s : String) : String :=
  String.mk (s.toList.map goToLowerChar)

/-- strings.ReplaceAll k "_" "-": with a one-rune pattern this is a
per-rune map. -/
def replaceUnderscores (s : String) : String :=
  String.mk (s.toList.map (fun c => if c == '_' then '-' else c))

/-- The signed metadata header name built by GeneratePresignedPutURL:
strings.ToLower of "x-amz-meta-" plus the key with underscores replaced. -/
def metaHeaderName (k : String) : String :=
  goToLower ("x-amz-meta-" ++ replaceUnderscores k)

/-- Leading-space removal (left half of strings.TrimSpace). -/
def trimLeft (l : List Char) : List Char := l.dropWhile isGoSpace

/-- Trailing-space removal (right half of strings.TrimSpace). -/
def trimRight (l : List Char) : List Char :=
  (l.reverse.dropWhile isGoSpace).reverse

/-- strings.TrimSpace on a character list. -/
def trimSpaceL (l : List Char) : List Char := trimRight (trimLeft l)

/-- strings.TrimSpace. -/
def goTrimSpace (s : String) : String := String.mk (trimSpaceL s.toList)

/-- strings.Fields: the maximal runs of non-space characters. -/
def fieldsL : List Char → List (List Char)
  | [] => []
  | c :: cs =>
    if isGoSpace c then fieldsL cs
    else (c :: cs.takeWhile (fun d => !isGoSpace d)) ::
      fieldsL (cs.dropWhile (fun d => !isGoSpace d))
termination_by l => l.length
decreasing_by
  · simp
  · simp only [List.length_cons]
    exact Nat.lt_succ_of_le (List.dropWhile_sublist _).length_le

/-- Join a list of words with single spaces
(strings.Join ws " " at the character level). -/
def joinSp : List (List Char) → List Char
  | [] => []
  | [w] => w
  | w :: ws => w ++ ' ' :: joinSp ws

/-- The metadata value normalization of GeneratePresignedPutURL:
TrimSpace, then Fields joined by single spaces. -/
def normalizeValue (v : String) : String :=
  String.mk (joinSp (fieldsL (trimSpaceL v.toList)))

/-- Insertion into a Go map modelled as an association list: replace the
value if the key is present, otherwise append the binding. -/
def mapInsert : List (String × String) → String → String → List (String × String)
  | [], k, v => [(k, v)]
  | (k', v') :: rest, k, v =>
    if k' = k then (k', v) :: rest else (k', v') :: mapInsert rest k v

/-- The headers map of GeneratePresignedPutURL: host first, then one
normalized binding per metadata entry. -/
def buildHeaders (host : String) (metadata : List (String × String)) :
    List (String × String) :=
  metadata.foldl
    (fun acc p => mapInsert acc (metaHeaderName p.1) (normalizeValue p.2))
    [("host", host)]

/-- Map lookup with the zero value of string as default, as in Go. -/
def lookupD (m : List (String × String)) (k : String) : String :=
  match m.find? (fun p => p.1 == k) with
  | some p => p.2
  | none => ""

/-- sort.Strings: lexicographic sort of a key list. -/
def sortStrings (l : List String) : List String :=
  l.insertionSort (· ≤ ·)

/-- The sorted header key list of GeneratePresignedPutURL. -/
def headerKeysOf (host : String) (md : List (String × String)) : List String :=
  sortStrings ((buildHeaders host md).map Prod.fst)

/-- The SignedHeaders value: sorted header keys joined by semicolons. -/
def signedHeadersOf (host : String) (md : List (String × String)) : String :=
  String.intercalate ";" (headerKeysOf host md)

/-- The canonical header block: one name:value line per sorted key (the
value trimmed once more, as in the source), with a trailing newline. -/
def canonicalHeadersOf (host : String) (md : List (String × String)) : String :=
  String.intercalate "\n"
    ((headerKeysOf host md).map
      (fun k => k ++ ":" ++ goTrimSpace (lookupD (buildHeaders host md) k)))
  ++ "\n"

/-- The sorted key list of a query-parameter map. -/
def sortedKeys (params : List (String × String)) : List String :=
  sortStrings (params.map Prod.fst)

/-- One k=v piece of buildCanonicalQueryString: key and value fully
escaped. -/
def canonicalQueryPart (params : List (String × String)) (k : String) : String :=
  uriEncode k true ++ "=" ++ uriEncode (lookupD params k) true

/-- AWSSigner.buildCanonicalQueryString: sort keys, escape everything,
join with ampersands. -/
def buildCanonicalQueryString (params : List (String × String)) : String :=
  String.intercalate "&" ((sortedKeys params).map (canonicalQueryPart params))

/-- One k=v piece of buildFinalQueryString: the X-Amz-Credential value is
encoded with slash escaping disabled. -/
def finalQueryPart (params : List (String × String)) (k : String) : String :=
  uriEncode k true ++ "=" ++
    (if k = "X-Amz-Credential" then uriEncode (lookupD params k) false
     else uriEncode (lookupD params k) true)

/-- AWSSigner.buildFinalQueryString. -/
def buildFinalQueryString (params : List (String × String)) : String :=
  String.intercalate "&" ((sortedKeys params).map (finalQueryPart params))

/-! SHA-256 over byte lists, with 32-bit words as Nat values reduced
modulo 2 to the 32. The round and initialization constants are derived
from their definition (fractional parts of cube and square roots of the
first primes, scaled by 2 to the 32). -/

/-- Word size constant: 2 to the 32. -/
def w32 : Nat := 4294967296

/-- Bitwise complement within 32 bits. -/
def not32 (a : Nat) : Nat := Nat.xor a (w32 - 1)

/-- Rotate a 32-bit word right by n. -/
def rotr32 (n x : Nat) : Nat :=
  (x / 2 ^ n + x % 2 ^ n * 2 ^ (32 - n)) % w32

/-- Logical right shift. -/
def shr32 (n x : Nat) : Nat := x / 2 ^ n

/-- SHA-256 big Sigma0. -/
def bigSigma0 (x : Nat) : Nat :=
  Nat.xor (rotr32 2 x) (Nat.xor (rotr32 13 x) (rotr32 22 x))

/-- SHA-256 big Sigma1. -/
def bigSigma1 (x : Nat) : Nat :=
  Nat.xor (rotr32 6 x) (Nat.xor (rotr32 11 x) (rotr32 25 x))

/-- SHA-256 small sigma0. -/
def smallSigma0 (x : Nat) : Nat :=
  Nat.xor (rotr32 7 x) (Nat.xor (rotr32 18 x) (shr32 3 x))

/-- SHA-256 small sigma1. -/
def smallSigma1 (x : Nat) : Nat :=
  Nat.xor (rotr32 17 x) (Nat.xor (rotr32 19 x) (shr32 10 x))

/-- SHA-256 choice function. -/
def chFn (x y z : Nat) : Nat :=
  Nat.xor (Nat.land x y) (Nat.land (not32 x) z)

/-- SHA-256 majority function. -/
def majFn (x y z : Nat) : Nat :=
  Nat.xor (Nat.land x y) (Nat.xor (Nat.land x z) (Nat.land y z))

/-- Binary search step for the integer cube root. -/
def icbrtAux : Nat → Nat → Nat → Nat → Nat
  | 0, _, lo, _ => lo
  | fuel + 1, n, lo, hi =>
    if hi ≤ lo + 1 then lo
    else
      let mid := (lo + hi) / 2
      if mid * mid * mid ≤ n then icbrtAux fuel n mid hi
      else icbrtAux fuel n lo mid

/-- Integer cube root. -/
def icbrt (n : Nat) : Nat := icbrtAux 200 n 0 (n + 1)

/-- The first 64 primes, sources of the SHA-256 round constants. -/
def primes64 : List Nat :=
  [2, 3, 5, 7, 11, 13, 17, 19, 23, 29, 31, 37, 41, 43, 47, 53,
   59, 61, 67, 71, 73, 79, 83, 89, 97, 101, 103, 107, 109, 113, 127, 131,
   137, 139, 149, 151, 157, 163, 167, 173, 179, 181, 191, 193, 197, 199, 211, 223,
   227, 229, 233, 239, 241, 251, 257, 263, 269, 271, 277, 281, 283, 293, 307, 311]

/-- The 64 SHA-256 round constants. -/
def k256 : List Nat := primes64.map (fun p => icbrt (p * 2 ^ 96) % w32)

/-- The 8 SHA-256 initialization words. -/
def h256 : List Nat :=
  ([2, 3, 5, 7, 11, 13, 17, 19] : List Nat).map
    (fun p => Nat.sqrt (p * 2 ^ 64) % w32)

/-- Big-endian byte expansion of a number to k bytes. -/
def beBytes : Nat → Nat → List Nat
  | 0, _ => []
  | k + 1, n => beBytes k (n / 256) ++ [n % 256]

/-- SHA-256 message padding: 0x80, zeros to 56 mod 64, 8 length bytes. -/
def sha256Pad (msg : List Nat) : List Nat :=
  msg ++ 128 :: (List.replicate ((119 - msg.length % 64) % 64) 0
    ++ beBytes 8 (msg.length * 8))

/-- Big-endian 32-bit words of a byte list. -/
def bytesToWords : List Nat → List Nat
  | b0 :: b1 :: b2 :: b3 :: rest =>
    (((b0 * 256 + b1) * 256 + b2) * 256 + b3) :: bytesToWords rest
  | _ => []

/-- Extend the 16-word schedule by fuel further words. -/
def extendSchedule : Nat → List Nat → List Nat
  | 0, w => w
  | fuel + 1, w =>
    let t := w.length
    let wt := (smallSigma1 (w.getD (t - 2) 0) + w.getD (t - 7) 0
      + smallSigma0 (w.getD (t - 15) 0) + w.getD (t - 16) 0) % w32
    extendSchedule fuel (w ++ [wt])

/-- One SHA-256 round on the eight-word working state. -/
def sha256Round (st : List Nat) (kw : Nat × Nat) : List Nat :=
  match st with
  | [a, b, c, d, e, f, g, h] =>
    let t1 := (h + bigSigma1 e + chFn e f g + kw.1 + kw.2) % w32
    let t2 := (bigSigma0 a + majFn a b c) % w32
    [(t1 + t2) % w32, a, b, c, (d + t1) % w32, e, f, g]
  | _ => st

/-- Process one 64-byte block. -/
def sha256Block (h : List Nat) (block : List Nat) : List Nat :=
  let w := extendSchedule 48 (bytesToWords block)
  let st := (k256.zip w).foldl sha256Round h
  (h.zip st).map (fun p => (p.1 + p.2) % w32)

/-- Split a byte list into 64-byte chunks. -/
def chunks64 : List Nat → List (List Nat)
  | [] => []
  | c :: rest => ((c :: rest).take 64) :: chunks64 ((c :: rest).drop 64)
termination_by l => l.length
decreasing_by
  simp only [List.length_drop, List.length_cons]
  omega

/-- SHA-256 of a byte list, as 32 digest bytes. -/
def sha256 (msg : List Nat) : List Nat :=
  ((chunks64 (sha256Pad msg)).foldl sha256Block h256).foldr
    (fun w acc => beBytes 4 w ++ acc) []

/-- HMAC-SHA256 (crypto/hmac with crypto/sha256): keys longer than the
64-byte block are hashed, then zero-padded. -/
def hmacSHA256 (key : List Nat) (msg : List Nat) : List Nat :=
  let k0 := if 64 < key.length then sha256 key else key
  let kPad := k0 ++ List.replicate (64 - k0.length) 0
  sha256 ((kPad.map (fun b => Nat.xor b 0x5c)) ++
    sha256 ((kPad.map (fun b => Nat.xor b 0x36)) ++ msg))

/-- AWSSigner.hmacSHA256: HMAC of the UTF-8 bytes of a string. -/
def hmacSHA256Str (key : List Nat) (data : String) : List Nat :=
  hmacSHA256 key (strBytes data)

/-- Lowercase hex of a byte list (hex.EncodeToString). -/
def bytesToHexLower (bs : List Nat) : String :=
  String.mk (bs.foldr
    (fun b acc => hexDigitLower (b / 16 % 16) :: hexDigitLower (b % 16) :: acc) [])

/-- AWSSigner.hmacSHA256Hex. -/
def hmacSHA256Hex (key : List Nat) (data : String) : String :=
  bytesToHexLower (hmacSHA256Str key data)

/-- AWSSigner.hash: lowercase hex of the SHA-256 of a string. -/
def hashHex (text : String) : String :=
  bytesToHexLower (sha256 (strBytes text))

/-- AWSSigner.getSignatureKey: the SigV4 key derivation chain. -/
def getSignatureKey (secretKey dateStamp region service : String) : List Nat :=
  let kSecret := strBytes ("AWS4" ++ secretKey)
  let kDate := hmacSHA256Str kSecret dateStamp
  let kRegion := hmacSHA256Str kDate region
  let kService := hmacSHA256Str kRegion service
  hmacSHA256Str kService "aws4_request"

/-! Time formatting. GeneratePresignedPutURL samples time.Now().UTC() once;
the sampled instant is the GoTime parameter below, and the two Format
calls (20060102T150405Z and 20060102) are modelled field by field. -/

/-- A sampled UTC wall-clock instant. -/
structure GoTime where
  year : Nat
  month : Nat
  day : Nat
  hour : Nat
  minute : Nat
  second : Nat
deriving DecidableEq

/-- Decimal digits of a number (fuel-based helper). -/
def natDigitsAux : Nat → Nat → List Char
  | 0, _ => []
  | fuel + 1, n =>
    if n < 10 then [Char.ofNat (48 + n)]
    else natDigitsAux fuel (n / 10) ++ [Char.ofNat (48 + n % 10)]

/-- Decimal representation of a Nat (the %d verb for our nonnegative
values). -/
def natDec (n : Nat) : String := String.mk (natDigitsAux (n + 1) n)

/-- Zero-padded decimal of the given width, as Go time formatting pads
its components. -/
def padNum (width n : Nat) : String :=
  String.mk (List.replicate (width - (natDec n).length) '0') ++ natDec n

/-- now.Format("20060102T150405Z"). -/
def formatAmzDate (t : GoTime) : String :=
  padNum 4 t.year ++ padNum 2 t.month ++ padNum 2 t.day ++ "T" ++
  padNum 2 t.hour ++ padNum 2 t.minute ++ padNum 2 t.second ++ "Z"

/-- now.Format("20060102"). -/
def formatDateStamp (t : GoTime) : String :=
  padNum 4 t.year ++ padNum 2 t.month ++ padNum 2 t.day

/-- The AWSSigner configuration (NewAWSSigner fields). -/
structure AWSSigner where
  accessKey : String
  secretKey : String
  region : String
  service : String
deriving DecidableEq

/-- The virtual-hosted bucket endpoint built by GeneratePresignedPutURL. -/
def hostOf (s : AWSSigner) (bucket : String) : String :=
  bucket ++ ".s3." ++ s.region ++ ".amazonaws.com"

/-- The X-Amz-Credential value. -/
def credentialOf (s : AWSSigner) (dateStamp : String) : String :=
  s.accessKey ++ "/" ++ dateStamp ++ "/" ++ s.region ++ "/" ++ s.service
    ++ "/aws4_request"

/-- The credential scope line of the string to sign. -/
def credentialScopeOf (s : AWSSigner) (dateStamp : String) : String :=
  dateStamp ++ "/" ++ s.region ++ "/" ++ s.service ++ "/aws4_request"

/-- The five query parameters assembled before signing. -/
def queryParamsOf (s : AWSSigner) (bucket : String)
    (metadata : List (String × String)) (expirationSeconds : Nat)
    (now : GoTime) : List (String × String) :=
  [("X-Amz-Algorithm", "AWS4-HMAC-SHA256"),
   ("X-Amz-Credential", credentialOf s (formatDateStamp now)),
   ("X-Amz-Date", formatAmzDate now),
   ("X-Amz-Expires", natDec expirationSeconds),
   ("X-Amz-SignedHeaders", signedHeadersOf (hostOf s bucket) metadata)]

/-- The canonical request assembled by GeneratePresignedPutURL
(fmt.Sprintf joining six components with newlines). -/
def canonicalRequestOf (s : AWSSigner) (bucket key : String)
    (metadata : List (String × String)) (expirationSeconds : Nat)
    (now : GoTime) : String :=
  "PUT" ++ "\n" ++ ("/" ++ key) ++ "\n" ++
  buildCanonicalQueryString (queryParamsOf s bucket metadata expirationSeconds now)
    ++ "\n" ++
  canonicalHeadersOf (hostOf s bucket) metadata ++ "\n" ++
  signedHeadersOf (hostOf s bucket) metadata ++ "\n" ++
  "UNSIGNED-PAYLOAD"

/-- The string to sign. -/
def stringToSignOf (s : AWSSigner) (bucket key : String)
    (metadata : List (String × String)) (expirationSeconds : Nat)
    (now : GoTime) : String :=
  "AWS4-HMAC-SHA256" ++ "\n" ++ formatAmzDate now ++ "\n" ++
  credentialScopeOf s (formatDateStamp now) ++ "\n" ++
  hashHex (canonicalRequestOf s bucket key metadata expirationSeconds now)

/-- The final hex signature. -/
def signatureOf (s : AWSSigner) (bucket key : String)
    (metadata : List (String × String)) (expirationSeconds : Nat)
    (now : GoTime) : String :=
  hmacSHA256Hex
    (getSignatureKey s.secretKey (formatDateStamp now) s.region s.service)
    (stringToSignOf s bucket key metadata expirationSeconds now)

/-- AWSSigner.GeneratePresignedPutURL. The contentType argument is carried
exactly as in the source, where it is never read. -/
def generatePresignedPutURL (s : AWSSigner) (bucket key contentType : String)
    (metadata : List (String × String)) (expirationSeconds : Nat)
    (now : GoTime) : String :=
  let host := hostOf s bucket
  let qp := queryParamsOf s bucket metadata expirationSeconds now
    ++ [("X-Amz-Signature",
          signatureOf s bucket key metadata expirationSeconds now)]
  "https://" ++ host ++ ("/" ++ key) ++ "?" ++ buildFinalQueryString qp

/-! Configuration loading (internal/config). -/

/-- The Config structure of internal/config. -/
structure Config where
  awsRegion : String
  awsAccessKeyID : String
  awsSecretAccessKey : String
  s3BucketName : String
  companyTag : String
  presignedURLExpirationMinutes : Int
  port : String
deriving DecidableEq

/-- getEnv: an environment value, or the default when unset or empty. -/
def getEnv (env : String → String) (key defaultValue : String) : String :=
  if env key ≠ "" then env key else defaultValue

/-- Digit accumulation for strconv.Atoi. -/
def digitsVal : List Char → Nat → Option Nat
  | [], acc => some acc
  | c :: cs, acc =>
    if 48 ≤ c.toNat && c.toNat ≤ 57 then
      digitsVal cs (acc * 10 + (c.toNat - 48))
    else none

/-- strconv.Atoi: optional sign, nonempty digit run, 64-bit range check. -/
def atoi (s : String) : Option Int :=
  let signed : Bool × List Char :=
    match s.toList with
    | '+' :: ds => (false, ds)
    | '-' :: ds => (true, ds)
    | ds => (false, ds)
  match signed.2 with
  | [] => none
  | ds =>
    match digitsVal ds 0 with
    | none => none
    | some n =>
      let v : Int := if signed.1 then -(Int.ofNat n) else Int.ofNat n
      if -(2 ^ 63) ≤ v ∧ v ≤ 2 ^ 63 - 1 then some v else none

/-- LoadConfig from internal/config: defaults, expiration parsing, and the
three required-field checks, in source order. Region is defaulted, never
checked. -/
def loadConfig (env : String → String) : Except String Config :=
  let awsRegion := getEnv env "AWS_REGION" "us-east-1"
  let awsAccessKeyID := getEnv env "AWS_ACCESS_KEY_ID" ""
  let awsSecretAccessKey := getEnv env "AWS_SECRET_ACCESS_KEY" ""
  let s3BucketName := getEnv env "S3_BUCKET_NAME" ""
  let companyTag := getEnv env "COMPANY_PREFIX" ""
  let port := getEnv env "PORT" "8080"
  match atoi (getEnv env "PRESIGNED_URL_EXPIRATION_MINUTES" "3") with
  | none => Except.error "invalid PRESIGNED_URL_EXPIRATION_MINUTES value"
  | some expiration =>
    if awsAccessKeyID = "" then Except.error "AWS_ACCESS_KEY_ID is required"
    else if awsSecretAccessKey = "" then
      Except.error "AWS_SECRET_ACCESS_KEY is required"
    else if s3BucketName = "" then Except.error "S3_BUCKET_NAME is required"
    else Except.ok
      { awsRegion := awsRegion, awsAccessKeyID := awsAccessKeyID,
        awsSecretAccessKey := awsSecretAccessKey,
        s3BucketName := s3BucketName, companyTag := companyTag,
        presignedURLExpirationMinutes := expiration, port := port }

/-! Object search (internal/service S3Service.SearchObjectByFilename).
The listed object keys (result.Contents, each with an optional Key) are a
parameter; keys and the filename are byte slices, since the Go code slices
the key by byte length. -/

/-- The Go suffix test: len(key) at least len(filename), and the final
len(filename) bytes of the key equal the filename. -/
def suffixMatch (key fn : List Nat) : Bool :=
  decide (fn.length ≤ key.length) &&
    decide (key.drop (key.length - fn.length) = fn)

/-- The listing loop of SearchObjectByFilename: first key whose suffix is
the filename, else (false, empty). -/
def searchObjectByFilename : List (Option (List Nat)) → List Nat → Bool × List Nat
  | [], _ => (false, [])
  | some key :: rest, fn =>
    if suffixMatch key fn then (true, key)
    else searchObjectByFilename rest fn
  | none :: rest, fn => searchObjectByFilename rest fn

/-- A concrete environment: credentials and bucket set, everything else
(region included) unset. -/
def envNoRegion : String → String := fun k =>
  if k = "AWS_ACCESS_KEY_ID" then "AKIAEXAMPLE"
  else if k = "AWS_SECRET_ACCESS_KEY" then "secretkey"
  else if k = "S3_BUCKET_NAME" then "bucket" else ""

/-- A concrete environment: all fields the claim calls required are set,
but the expiration variable does not parse as an integer. -/
def envBadExpiration : String → String := fun k =>
  if k = "AWS_ACCESS_KEY_ID" then "AKIAEXAMPLE"
  else if k = "AWS_SECRET_ACCESS_KEY" then "secretkey"
  else if k = "S3_BUCKET_NAME" then "bucket"
  else if k = "AWS_REGION" then "us-east-1"
  else if k = "PRESIGNED_URL_EXPIRATION_MINUTES" then "abc" else ""

/-! Supporting lemmas. -/

theorem beBytes_length (k n : Nat) : (beBytes k n).length = k := by
  induction k generalizing n with
  | zero => rfl
  | succ k ih => simp [beBytes, ih]

theorem sha256Round_length (st : List Nat) (kw : Nat × Nat) :
    (sha256Round st kw).length = st.length := by
  unfold sha256Round
  split
  · rfl
  · rfl

theorem foldl_sha256Round_length (l : List (Nat × Nat)) (h : List Nat) :
    (l.foldl sha256Round h).length = h.length := by
  induction l generalizing h with
  | nil => rfl
  | cons x xs ih => simp [List.foldl_cons, ih, sha256Round_length]

theorem sha256Block_length (h b : List Nat) (hh : h.length = 8) :
    (sha256Block h b).length = 8 := by
  simp [sha256Block, List.length_zip, foldl_sha256Round_length, hh]

theorem foldl_sha256Block_length (chunks : List (List Nat)) (h : List Nat)
    (hh : h.length = 8) : (chunks.foldl sha256Block h).length = 8 := by
  induction chunks generalizing h with
  | nil => exact hh
  | cons c cs ih => exact ih _ (sha256Block_length _ _ hh)

theorem foldr_beBytes_length (l : List Nat) :
    (l.foldr (fun w acc => beBytes 4 w ++ acc) []).length = 4 * l.length := by
  induction l with
  | nil => rfl
  | cons x xs ih =>
    simp [List.foldr_cons, List.length_append, ih, beBytes_length]
    omega

theorem sha256_length (msg : List Nat) : (sha256 msg).length = 32 := by
  unfold sha256
  rw [foldr_beBytes_length, foldl_sha256Block_length]
  rfl

theorem hmacSHA256_length (key msg : List Nat) :
    (hmacSHA256 key msg).length = 32 :=
  sha256_length _

/-! Claim theorems. -/

/-- C1: the specification states that uriEncode escapes every
non-unreserved BYTE of the UTF-8 representation as an uppercase two-digit
escape, per byte rather than per code point. The source iterates over
runes and formats the code-point value, so on the two-byte character é the
code emits a single code-point escape and on the three-byte € it emits a
single four-digit escape, while the specified per-byte encoder emits one
two-digit escape per UTF-8 byte. -/
theorem uriEncode_codepoint_not_bytewise :
    uriEncode "é" true = "%E9" ∧
    uriEncodeBytewise "é" true = "%C3%A9" ∧
    uriEncode "é" true ≠ uriEncodeBytewise "é" true ∧
    uriEncode "€/a" false = "%20AC/a" ∧
    uriEncodeBytewise "€/a" false = "%E2%82%AC/a" := by
  refine ⟨rfl, rfl, ?_, rfl, rfl⟩
  decide

/-- C5: getSignatureKey is exactly the four-step HMAC-SHA256 chain over
AWS4 plus the secret, the date stamp, the region, the service and the
literal aws4_request, it is deterministic, and it returns the 32 raw
digest bytes rather than a hex string. -/
theorem getSignatureKey_hmac_chain (secretKey dateStamp region service : String) :
    getSignatureKey secretKey dateStamp region service =
      hmacSHA256 (hmacSHA256 (hmacSHA256 (hmacSHA256
        (strBytes ("AWS4" ++ secretKey)) (strBytes dateStamp))
        (strBytes region)) (strBytes service)) (strBytes "aws4_request") ∧
    getSignatureKey secretKey dateStamp region service =
      getSignatureKey secretKey dateStamp region service ∧
    (getSignatureKey secretKey dateStamp region service).length = 32 :=
  ⟨rfl, rfl, hmacSHA256_length _ _⟩

/-- C9: the presigned URL is a function of everything except contentType;
the contentType argument is never read, so any two values give the byte
identical URL. -/
theorem generatePresignedPutURL_contentType_irrelevant (s : AWSSigner)
    (bucket key : String) (metadata : List (String × String))
    (expirationSeconds : Nat) (now : GoTime) (ct1 ct2 : String) :
    generatePresignedPutURL s bucket key ct1 metadata expirationSeconds now =
    generatePresignedPutURL s bucket key ct2 metadata expirationSeconds now :=
  rfl

/-- C8 counterexample: the claim says loadConfig fails exactly when a
required field among credential, region, or bucket is missing or empty,
and in particular that a missing region fails. In the source the region
is defaulted to us-east-1 and never validated, so a configuration with no
region loads successfully; and a set of complete required fields still
fails when the expiration variable does not parse. -/
theorem loadConfig_region_not_required :
    envNoRegion "AWS_REGION" = "" ∧
    loadConfig envNoRegion = Except.ok
      { awsRegion := "us-east-1", awsAccessKeyID := "AKIAEXAMPLE",
        awsSecretAccessKey := "secretkey", s3BucketName := "bucket",
        companyTag := "", presignedURLExpirationMinutes := 3,
        port := "8080" } ∧
    loadConfig envBadExpiration =
      Except.error "invalid PRESIGNED_URL_EXPIRATION_MINUTES value" := by
  refine ⟨rfl, ?_, rfl⟩
  rfl

/-- C8 amended: loadConfig returns an error exactly when the expiration
variable fails integer parsing, or the access key, secret key, or bucket
resolves to the empty string; the region is defaulted and never
validated. -/
theorem loadConfig_error_characterization (env : String → String) :
    (loadConfig env).toOption = none ↔
      (atoi (getEnv env "PRESIGNED_URL_EXPIRATION_MINUTES" "3") = none ∨
       getEnv env "AWS_ACCESS_KEY_ID" "" = "" ∨
       getEnv env "AWS_SECRET_ACCESS_KEY" "" = "" ∨
       getEnv env "S3_BUCKET_NAME" "" = "") := by
  unfold loadConfig
  cases h : atoi (getEnv env "PRESIGNED_URL_EXPIRATION_MINUTES" "3") with
  | none => simp [h, Except.toOption]
  | some v =>
    by_cases h1 : getEnv env "AWS_ACCESS_KEY_ID" "" = "" <;>
      by_cases h2 : getEnv env "AWS_SECRET_ACCESS_KEY" "" = "" <;>
        by_cases h3 : getEnv env "S3_BUCKET_NAME" "" = "" <;>
          simp [h, h1, h2, h3, Except.toOption]

/-- C10: SearchObjectByFilename matches by byte suffix only: it is the
first listed key whose final bytes equal the filename (the suffix test is
equivalent to list suffix), a proper suffix of a longer stored name also
matches, and with no match it returns false and the empty key with no
error path taken. -/
theorem searchObjectByFilename_suffix_spec
    (contents : List (Option (List Nat))) (fn : List Nat) :
    searchObjectByFilename contents fn =
      (match contents.find?
          (fun o => (o.map (fun k => suffixMatch k fn)).getD false) with
       | some (some k) => (true, k)
       | _ => (false, [])) ∧
    (∀ key, suffixMatch key fn = true ↔ fn <:+ key) ∧
    ((∀ o ∈ contents, (o.map (fun k => suffixMatch k fn)).getD false = false) →
      searchObjectByFilename contents fn = (false, [])) ∧
    searchObjectByFilename [some (strBytes "inputs/myfile.txt")]
      (strBytes "file.txt") = (true, strBytes "inputs/myfile.txt") := by
  refine ⟨?_, ?_, ?_, by decide⟩
  · induction contents with
    | nil => rfl
    | cons o rest ih =>
      cases o with
      | none => simpa [searchObjectByFilename, List.find?] using ih
      | some key =>
        by_cases hm : suffixMatch key fn <;>
          simp [searchObjectByFilename, List.find?, hm, ih]
  · intro key
    constructor
    · intro h
      simp only [suffixMatch, Bool.and_eq_true, decide_eq_true_eq] at h
      exact List.suffix_iff_eq_drop.mpr h.2.symm
    · intro h
      simp only [suffixMatch, Bool.and_eq_true, decide_eq_true_eq]
      exact ⟨h.length_le, (List.suffix_iff_eq_drop.mp h).symm⟩
  · intro hall
    induction contents with
    | nil => rfl
    | cons o rest ih =>
      cases o with
      | none =>
        exact ih (fun o ho => hall o (List.mem_cons_of_mem _ ho))
      | some key =>
        have hk := hall (some key) (List.mem_cons_self _ _)
        simp only [Option.map_some', Option.getD_some] at hk
        simp [searchObjectByFilename, hk,
          ih (fun o ho => hall o (List.mem_cons_of_mem _ ho))]

/-- C10 witness: the no-match branch at a concrete listing. -/
theorem searchObjectByFilename_suffix_spec_witness :
    searchObjectByFilename [some (strBytes "report.pdf")]
      (strBytes "data.pdf") = (false, []) :=
  (searchObjectByFilename_suffix_spec [some (strBytes "report.pdf")]
    (strBytes "data.pdf")).2.2.1 (by decide)

/-- C4: both query-string builders sort the keys, escape each key and
value, and join k=v pairs with ampersands; they agree on every key other
than X-Amz-Credential, and on X-Amz-Credential the canonical builder
escapes slashes while the final builder leaves them literal, so the
outputs differ only in the encoding of that one value. -/
theorem queryBuilders_differ_only_in_credential (params : List (String × String)) :
    buildCanonicalQueryString params =
      String.intercalate "&" ((sortedKeys params).map (canonicalQueryPart params)) ∧
    buildFinalQueryString params =
      String.intercalate "&" ((sortedKeys params).map (finalQueryPart params)) ∧
    (∀ k, k ≠ "X-Amz-Credential" →
      finalQueryPart params k = canonicalQueryPart params k) ∧
    canonicalQueryPart params "X-Amz-Credential" =
      uriEncode "X-Amz-Credential" true ++ "=" ++
        uriEncode (lookupD params "X-Amz-Credential") true ∧
    finalQueryPart params "X-Amz-Credential" =
      uriEncode "X-Amz-Credential" true ++ "=" ++
        uriEncode (lookupD params "X-Amz-Credential") false := by
  refine ⟨rfl, rfl, ?_, rfl, ?_⟩
  · intro k hk
    simp [finalQueryPart, canonicalQueryPart, hk]
  · simp [finalQueryPart]

/-- C4 witness: on a key other than the credential the two builders
produce the same piece. -/
theorem queryBuilders_differ_only_in_credential_witness :
    finalQueryPart [("X-Amz-Date", "20240116T143000Z")] "X-Amz-Date" =
    canonicalQueryPart [("X-Amz-Date", "20240116T143000Z")] "X-Amz-Date" :=
  (queryBuilders_differ_only_in_credential
    [("X-Amz-Date", "20240116T143000Z")]).2.2.1 "X-Amz-Date" (by decide)

/-- C6: the canonical request is the newline join of exactly six
components: the method PUT, the canonical URI (slash plus key), the
canonical query string, the sorted name:value header block with its
trailing newline, the semicolon-joined signed-header list, and the
payload token, which is always the literal UNSIGNED-PAYLOAD. -/
theorem canonicalRequest_six_components (s : AWSSigner) (bucket key : String)
    (md : List (String × String)) (e : Nat) (now : GoTime) :
    canonicalRequestOf s bucket key md e now =
      String.intercalate "\n"
        ["PUT", "/" ++ key,
         buildCanonicalQueryString (queryParamsOf s bucket md e now),
         canonicalHeadersOf (hostOf s bucket) md,
         signedHeadersOf (hostOf s bucket) md,
         "UNSIGNED-PAYLOAD"] ∧
    canonicalHeadersOf (hostOf s bucket) md =
      String.intercalate "\n"
        ((headerKeysOf (hostOf s bucket) md).map
          (fun k => k ++ ":" ++
            goTrimSpace (lookupD (buildHeaders (hostOf s bucket) md) k)))
        ++ "\n" := by
  constructor
  · simp [canonicalRequestOf, String.intercalate, String.intercalate.go,
      String.append_assoc]
  · rfl

theorem natDigitsAux_length_le (fuel : Nat) : ∀ n k, n < 10 ^ k → 0 < k →
    (natDigitsAux fuel n).length ≤ k := by
  induction fuel with
  | zero => intro n k h hk; simp [natDigitsAux]
  | succ fuel ih =>
    intro n k h hk
    by_cases hn : n < 10
    · simp [natDigitsAux, hn]; omega
    · have hk2 : 2 ≤ k := by
        rcases Nat.lt_or_ge k 2 with hlt | hge
        · have hke : k = 1 := by omega
          subst hke
          simp at h
          omega
        · exact hge
      have hdiv : n / 10 < 10 ^ (k - 1) := by
        have h10 : 10 ^ k = 10 ^ (k - 1) * 10 := by
          conv_lhs => rw [show k = k - 1 + 1 by omega]
          rw [pow_succ]
        exact (Nat.div_lt_iff_lt_mul (by norm_num)).mpr (by omega)
      have hrec := ih (n / 10) (k - 1) hdiv (by omega)
      simp [natDigitsAux, hn, List.length_append]
      omega

theorem natDec_data_length_le (n k : Nat) (h : n < 10 ^ k) (hk : 0 < k) :
    (natDec n).data.length ≤ k := by
  simpa [natDec] using natDigitsAux_length_le (n + 1) n k h hk

theorem padNum_data_length (w n : Nat) (h : (natDec n).data.length ≤ w) :
    (padNum w n).data.length = w := by
  rw [padNum, String.data_append]
  simp only [List.length_append]
  have hlen : (natDec n).length = (natDec n).data.length := rfl
  simp
  omega

theorem formatDateStamp_data_length (t : GoTime) (hy : t.year ≤ 9999)
    (hm : t.month ≤ 99) (hd : t.day ≤ 99) :
    (formatDateStamp t).data.length = 8 := by
  rw [formatDateStamp, String.data_append, String.data_append]
  simp only [List.length_append]
  rw [padNum_data_length 4 t.year (natDec_data_length_le _ 4 (by omega) (by omega)),
      padNum_data_length 2 t.month (natDec_data_length_le _ 2 (by omega) (by omega)),
      padNum_data_length 2 t.day (natDec_data_length_le _ 2 (by omega) (by omega))]

theorem formatAmzDate_split (t : GoTime) :
    formatAmzDate t = formatDateStamp t ++
      ("T" ++ padNum 2 t.hour ++ padNum 2 t.minute ++ padNum 2 t.second ++ "Z") := by
  simp [formatAmzDate, formatDateStamp, String.append_assoc]

/-- C7: both timestamp renderings are derived from the single sampled
instant: X-Amz-Date carries the full-format instant, the credential scope
embeds the short date of the same instant, the full format is the short
date followed by the time-of-day part, and hence the first eight
characters of X-Amz-Date equal the credential date stamp. -/
theorem amzDate_dateStamp_single_instant (s : AWSSigner) (bucket : String)
    (md : List (String × String)) (e : Nat) (t : GoTime)
    (hy : t.year ≤ 9999) (hm : t.month ≤ 99) (hd : t.day ≤ 99) :
    lookupD (queryParamsOf s bucket md e t) "X-Amz-Date" = formatAmzDate t ∧
    lookupD (queryParamsOf s bucket md e t) "X-Amz-Credential" =
      s.accessKey ++ "/" ++ formatDateStamp t ++ "/" ++ s.region ++ "/"
        ++ s.service ++ "/aws4_request" ∧
    formatAmzDate t = formatDateStamp t ++
      ("T" ++ padNum 2 t.hour ++ padNum 2 t.minute ++ padNum 2 t.second ++ "Z") ∧
    (formatAmzDate t).data.take 8 = (formatDateStamp t).data := by
  refine ⟨rfl, rfl, formatAmzDate_split t, ?_⟩
  rw [formatAmzDate_split, String.data_append]
  rw [show (8 : Nat) = (formatDateStamp t).data.length from
    (formatDateStamp_data_length t hy hm hd).symm]
  exact List.take_left _ _

/-- C7 witness: the date portion agreement at a concrete instant. -/
theorem amzDate_dateStamp_single_instant_witness :
    (formatAmzDate ⟨2024, 1, 16, 14, 30, 0⟩).data.take 8 =
    (formatDateStamp ⟨2024, 1, 16, 14, 30, 0⟩).data :=
  (amzDate_dateStamp_single_instant ⟨"AK", "SK", "us-east-1", "s3"⟩ "bkt" []
    180 ⟨2024, 1, 16, 14, 30, 0⟩ (by decide) (by decide) (by decide)).2.2.2

theorem mapInsert_map_fst (m : List (String × String)) (k v : String) :
    (mapInsert m k v).map Prod.fst =
      if k ∈ m.map Prod.fst then m.map Prod.fst else m.map Prod.fst ++ [k] := by
  induction m with
  | nil => simp [mapInsert]
  | cons p rest ih =>
    obtain ⟨k', v'⟩ := p
    by_cases h : k' = k
    · subst h
      simp [mapInsert]
    · simp only [mapInsert, if_neg h, List.map_cons, ih]
      by_cases hk : k ∈ rest.map Prod.fst
      · simp [hk, Ne.symm h]
      · simp [hk, Ne.symm h]

theorem mem_mapInsert_fst (m : List (String × String)) (k v a : String) :
    a ∈ (mapInsert m k v).map Prod.fst ↔ a ∈ m.map Prod.fst ∨ a = k := by
  rw [mapInsert_map_fst]
  split_ifs with h
  · constructor
    · exact fun ha => Or.inl ha
    · rintro (ha | rfl)
      · exact ha
      · exact h
  · simp

theorem nodup_mapInsert_fst (m : List (String × String)) (k v : String)
    (h : (m.map Prod.fst).Nodup) : ((mapInsert m k v).map Prod.fst).Nodup := by
  rw [mapInsert_map_fst]
  split_ifs with hk
  · exact h
  · simp [List.nodup_append, h, hk]

theorem foldl_insert_fst_mem (md : List (String × String)) :
    ∀ acc a, a ∈ ((md.foldl (fun acc p =>
        mapInsert acc (metaHeaderName p.1) (normalizeValue p.2)) acc).map Prod.fst)
      ↔ a ∈ acc.map Prod.fst ∨ a ∈ md.map (fun p => metaHeaderName p.1) := by
  induction md with
  | nil => simp
  | cons p rest ih =>
    intro acc a
    rw [List.foldl_cons, ih, mem_mapInsert_fst]
    simp
    tauto

theorem foldl_insert_fst_nodup (md : List (String × String)) :
    ∀ acc, (acc.map Prod.fst).Nodup →
      ((md.foldl (fun acc p =>
        mapInsert acc (metaHeaderName p.1) (normalizeValue p.2)) acc).map
          Prod.fst).Nodup := by
  induction md with
  | nil => exact fun acc h => h
  | cons p rest ih =>
    intro acc h
    exact ih _ (nodup_mapInsert_fst _ _ _ h)

theorem buildHeaders_keys_perm (host : String) (md : List (String × String)) :
    ((buildHeaders host md).map Prod.fst).Perm
      (("host" :: md.map (fun p => metaHeaderName p.1)).dedup) := by
  apply (List.perm_ext_iff_of_nodup
    (foldl_insert_fst_nodup md [("host", host)] (by simp))
    (List.nodup_dedup _)).mpr
  intro a
  rw [List.mem_dedup]
  rw [foldl_insert_fst_mem]
  simp

theorem sortStrings_eq_of_perm (l₁ l₂ : List String) (h : l₁.Perm l₂) :
    sortStrings l₁ = sortStrings l₂ :=
  List.eq_of_perm_of_sorted
    ((List.perm_insertionSort _ l₁).trans
      (h.trans (List.perm_insertionSort _ l₂).symm))
    (List.sorted_insertionSort _ l₁) (List.sorted_insertionSort _ l₂)

/-- C2: the rendered X-Amz-SignedHeaders value is the semicolon join of
the lexicographically sorted set of host together with the normalized
x-amz-meta names of the metadata keys (dedup reflects map-key collision
semantics), it is unchanged under any reordering of the metadata
entries, and it is exactly the value placed in the query-parameter
set. -/
theorem signedHeaders_sorted_set (host : String) (md : List (String × String)) :
    (signedHeadersOf host md = String.intercalate ";"
      (sortStrings (("host" :: md.map (fun p => metaHeaderName p.1)).dedup)) ∧
     ∀ s bucket e t, lookupD (queryParamsOf s bucket md e t)
        "X-Amz-SignedHeaders" = signedHeadersOf (hostOf s bucket) md) ∧
    ∀ md', (md.map (fun p => metaHeaderName p.1)).Perm
        (md'.map (fun p => metaHeaderName p.1)) →
      signedHeadersOf host md = signedHeadersOf host md' := by
  have base : ∀ m : List (String × String), signedHeadersOf host m =
      String.intercalate ";"
        (sortStrings (("host" :: m.map (fun p => metaHeaderName p.1)).dedup)) := by
    intro m
    unfold signedHeadersOf headerKeysOf
    exact congrArg _ (sortStrings_eq_of_perm _ _ (buildHeaders_keys_perm host m))
  refine ⟨⟨base md, fun s bucket e t => rfl⟩, ?_⟩
  intro md' hperm
  rw [base md, base md']
  exact congrArg _ (sortStrings_eq_of_perm _ _ ((hperm.cons "host").dedup))

/-- C2 witness: reordering the metadata leaves the signed-header list
unchanged at a concrete mapping. -/
theorem signedHeaders_sorted_set_witness :
    signedHeadersOf "h" [("language", "es"), ("instructions", "ocr")] =
    signedHeadersOf "h" [("instructions", "ocr"), ("language", "es")] :=
  (signedHeaders_sorted_set "h" [("language", "es"), ("instructions", "ocr")]).2
    [("instructions", "ocr"), ("language", "es")] (by decide)

theorem fieldsL_nil : fieldsL [] = [] := by
  simp [fieldsL]

theorem fieldsL_dropWhile_space (l : List Char) :
    fieldsL (l.dropWhile isGoSpace) = fieldsL l := by
  induction l with
  | nil => rfl
  | cons c cs ih =>
    cases h : isGoSpace c with
    | true => simp [List.dropWhile_cons, h, ih, fieldsL]
    | false => simp [List.dropWhile_cons, h, fieldsL]

theorem fieldsL_all_space (s : List Char)
    (hs : ∀ c ∈ s, isGoSpace c = true) : fieldsL s = [] := by
  induction s with
  | nil => exact fieldsL_nil
  | cons c cs ih =>
    have hc := hs c (by simp)
    simp [fieldsL, hc, ih (fun d hd => hs d (by simp [hd]))]

theorem takeWhile_append_all {α : Type} (p : α → Bool) (l₁ l₂ : List α)
    (h : ∀ x ∈ l₁, p x = true) :
    (l₁ ++ l₂).takeWhile p = l₁ ++ l₂.takeWhile p := by
  induction l₁ with
  | nil => simp
  | cons x xs ih =>
    have hx := h x (by simp)
    simp [List.takeWhile_cons, hx, ih (fun y hy => h y (by simp [hy]))]

theorem dropWhile_append_all {α : Type} (p : α → Bool) (l₁ l₂ : List α)
    (h : ∀ x ∈ l₁, p x = true) :
    (l₁ ++ l₂).dropWhile p = l₂.dropWhile p := by
  induction l₁ with
  | nil => simp
  | cons x xs ih =>
    have hx := h x (by simp)
    simp [List.dropWhile_cons, hx, ih (fun y hy => h y (by simp [hy]))]

theorem takeWhile_append_stop {α : Type} (p : α → Bool) (l₁ l₂ : List α)
    (h : l₁.dropWhile p ≠ []) :
    (l₁ ++ l₂).takeWhile p = l₁.takeWhile p ∧
    (l₁ ++ l₂).dropWhile p = l₁.dropWhile p ++ l₂ := by
  induction l₁ with
  | nil => simp at h
  | cons x xs ih =>
    cases hx : p x with
    | true =>
      have h' : xs.dropWhile p ≠ [] := by
        simpa [List.dropWhile_cons, hx] using h
      have := ih h'
      simp [List.takeWhile_cons, List.dropWhile_cons, hx, this.1, this.2]
    | false =>
      simp [List.takeWhile_cons, List.dropWhile_cons, hx]

theorem takeWhile_nonspace_all_space (s : List Char)
    (hs : ∀ c ∈ s, isGoSpace c = true) :
    s.takeWhile (fun d => !isGoSpace d) = [] := by
  cases s with
  | nil => rfl
  | cons c cs =>
    have := hs c (by simp)
    simp [List.takeWhile_cons, this]

theorem dropWhile_nonspace_all_space (s : List Char)
    (hs : ∀ c ∈ s, isGoSpace c = true) :
    s.dropWhile (fun d => !isGoSpace d) = s := by
  cases s with
  | nil => rfl
  | cons c cs =>
    have := hs c (by simp)
    simp [List.dropWhile_cons, this]

theorem fieldsL_append_space_aux (s : List Char)
    (hs : ∀ c ∈ s, isGoSpace c = true) :
    ∀ n l, l.length ≤ n → fieldsL (l ++ s) = fieldsL l := by
  intro n
  induction n with
  | zero =>
    intro l hl
    have hnil : l = [] := by
      cases l with
      | nil => rfl
      | cons c cs => simp at hl
    subst hnil
    rw [List.nil_append, fieldsL_all_space s hs, fieldsL_nil]
  | succ n ih =>
    intro l hl
    cases l with
    | nil => rw [List.nil_append, fieldsL_all_space s hs, fieldsL_nil]
    | cons c cs =>
      cases hc : isGoSpace c with
      | true =>
        have h1 : fieldsL ((c :: cs) ++ s) = fieldsL (cs ++ s) := by
          simp [fieldsL, hc]
        have h2 : fieldsL (c :: cs) = fieldsL cs := by
          simp [fieldsL, hc]
        have hcs : cs.length ≤ n := by
          simp at hl
          omega
        rw [h1, h2, ih cs hcs]
      | false =>
        by_cases hstop : cs.dropWhile (fun d => !isGoSpace d) = []
        · have hall : ∀ x ∈ cs, (fun d => !isGoSpace d) x = true := by
            rw [← List.dropWhile_eq_nil_iff]
            exact hstop
          have h1 : fieldsL ((c :: cs) ++ s) =
              (c :: (cs ++ s.takeWhile (fun d => !isGoSpace d))) ::
                fieldsL (s.dropWhile (fun d => !isGoSpace d)) := by
            simp only [List.cons_append]
            rw [fieldsL]
            simp only [hc]
            rw [takeWhile_append_all _ cs s hall, dropWhile_append_all _ cs s hall]
            simp
          rw [h1, takeWhile_nonspace_all_space s hs,
            dropWhile_nonspace_all_space s hs, fieldsL_all_space s hs]
          have h2 : fieldsL (c :: cs) =
              (c :: cs.takeWhile (fun d => !isGoSpace d)) ::
                fieldsL (cs.dropWhile (fun d => !isGoSpace d)) := by
            rw [fieldsL]
            simp [hc]
          rw [h2, hstop]
          have hcs : cs.takeWhile (fun d => !isGoSpace d) = cs := by
            simpa using takeWhile_append_all _ cs [] hall
          rw [hcs]
          simp [fieldsL]
        · obtain ⟨hT, hD⟩ := takeWhile_append_stop (fun d => !isGoSpace d) cs s hstop
          have h1 : fieldsL ((c :: cs) ++ s) =
              (c :: cs.takeWhile (fun d => !isGoSpace d)) ::
                fieldsL (cs.dropWhile (fun d => !isGoSpace d) ++ s) := by
            simp only [List.cons_append]
            rw [fieldsL]
            simp only [hc]
            rw [hT, hD]
            simp
          have hlen : (cs.dropWhile (fun d => !isGoSpace d)).length ≤ n := by
            have := (List.dropWhile_sublist (l := cs) (fun d => !isGoSpace d)).length_le
            simp at hl
            omega
          rw [h1, ih _ hlen]
          rw [fieldsL]
          simp [hc]

theorem trimRight_decomp (l : List Char) :
    l = trimRight l ++ (l.reverse.takeWhile isGoSpace).reverse ∧
    ∀ c ∈ (l.reverse.takeWhile isGoSpace).reverse, isGoSpace c = true := by
  constructor
  · conv_lhs => rw [← List.reverse_reverse l,
      ← List.takeWhile_append_dropWhile (p := isGoSpace) (l := l.reverse)]
    rw [List.reverse_append]
    rfl
  · intro c hc
    rw [List.mem_reverse] at hc
    exact List.mem_takeWhile_imp hc

theorem fieldsL_trimSpace (l : List Char) :
    fieldsL (trimSpaceL l) = fieldsL l := by
  obtain ⟨heq, hsp⟩ := trimRight_decomp (trimLeft l)
  have h1 : fieldsL (trimRight (trimLeft l) ++
      ((trimLeft l).reverse.takeWhile isGoSpace).reverse) =
      fieldsL (trimRight (trimLeft l)) :=
    fieldsL_append_space_aux _ hsp _ _ le_rfl
  calc fieldsL (trimSpaceL l) = fieldsL (trimRight (trimLeft l)) := rfl
    _ = fieldsL (trimLeft l) := by rw [← h1, ← heq]
    _ = fieldsL l := fieldsL_dropWhile_space l

theorem fieldsL_words_nonspace_aux :
    ∀ n l, l.length ≤ n → ∀ w ∈ fieldsL l,
      w ≠ [] ∧ ∀ c ∈ w, isGoSpace c = false := by
  intro n
  induction n with
  | zero =>
    intro l hl w hw
    have hnil : l = [] := by
      cases l with
      | nil => rfl
      | cons c cs => simp at hl
    subst hnil
    rw [fieldsL_nil] at hw
    simp at hw
  | succ n ih =>
    intro l hl w hw
    cases l with
    | nil =>
      rw [fieldsL_nil] at hw
      simp at hw
    | cons c cs =>
      have hcs : cs.length ≤ n := by
        simp at hl
        omega
      cases hc : isGoSpace c with
      | true =>
        rw [show fieldsL (c :: cs) = fieldsL cs by simp [fieldsL, hc]] at hw
        exact ih cs hcs w hw
      | false =>
        rw [show fieldsL (c :: cs) =
            (c :: cs.takeWhile (fun d => !isGoSpace d)) ::
              fieldsL (cs.dropWhile (fun d => !isGoSpace d)) by
          rw [fieldsL]; simp [hc]] at hw
        rcases List.mem_cons.mp hw with hwh | hwt
        · subst hwh
          refine ⟨by simp, ?_⟩
          intro d hd
          rcases List.mem_cons.mp hd with hdc | hdt
          · subst hdc
            exact hc
          · have := List.mem_takeWhile_imp hdt
            simpa using this
        · have hlen : (cs.dropWhile (fun d => !isGoSpace d)).length ≤ n := by
            have := (List.dropWhile_sublist (l := cs) (fun d => !isGoSpace d)).length_le
            omega
          exact ih _ hlen w hwt

theorem trimLeft_of_head_nonspace (c : Char) (rest : List Char)
    (hc : isGoSpace c = false) : trimLeft (c :: rest) = c :: rest := by
  simp [trimLeft, List.dropWhile_cons, hc]

theorem joinSp_head (ws : List (List Char)) (hne : ws ≠ [])
    (h : ∀ w ∈ ws, w ≠ [] ∧ ∀ c ∈ w, isGoSpace c = false) :
    ∃ d t, joinSp ws = d :: t ∧ isGoSpace d = false := by
  cases ws with
  | nil => exact absurd rfl hne
  | cons w ws' =>
    obtain ⟨hwne, hwns⟩ := h w (by simp)
    cases w with
    | nil => exact absurd rfl hwne
    | cons d t0 =>
      cases ws' with
      | nil => exact ⟨d, t0, rfl, hwns d (by simp)⟩
      | cons x xs =>
        exact ⟨d, t0 ++ ' ' :: joinSp (x :: xs), by simp [joinSp],
          hwns d (by simp)⟩

theorem joinSp_reverse_head (ws : List (List Char)) (hne : ws ≠ [])
    (h : ∀ w ∈ ws, w ≠ [] ∧ ∀ c ∈ w, isGoSpace c = false) :
    ∃ d t, (joinSp ws).reverse = d :: t ∧ isGoSpace d = false := by
  induction ws with
  | nil => exact absurd rfl hne
  | cons w ws' ih =>
    cases ws' with
    | nil =>
      obtain ⟨hwne, hwns⟩ := h w (by simp)
      cases hr : w.reverse with
      | nil => exact absurd (by simpa using hr) hwne
      | cons d t0 =>
        have hd : d ∈ w := by
          rw [← List.mem_reverse, hr]
          simp
        exact ⟨d, t0, by simpa [joinSp] using hr, hwns d hd⟩
    | cons x xs =>
      obtain ⟨d, t0, hrev, hd⟩ := ih (by simp)
        (fun u hu => h u (List.mem_cons_of_mem _ hu))
      refine ⟨d, t0 ++ ' ' :: w.reverse, ?_, hd⟩
      show (joinSp (w :: x :: xs)).reverse = _
      rw [show joinSp (w :: x :: xs) = w ++ ' ' :: joinSp (x :: xs) by
        simp [joinSp]]
      rw [List.reverse_append, List.reverse_cons, List.append_assoc, hrev]
      simp

theorem trimSpaceL_joinSp (ws : List (List Char))
    (h : ∀ w ∈ ws, w ≠ [] ∧ ∀ c ∈ w, isGoSpace c = false) :
    trimSpaceL (joinSp ws) = joinSp ws := by
  cases ws with
  | nil => rfl
  | cons w ws' =>
    obtain ⟨d, t, hj, hd⟩ := joinSp_head (w :: ws') (by simp) h
    obtain ⟨d', t', hr, hd'⟩ := joinSp_reverse_head (w :: ws') (by simp) h
    unfold trimSpaceL
    rw [hj, trimLeft_of_head_nonspace d t hd, ← hj]
    unfold trimRight
    rw [hr, List.dropWhile_cons, hd']
    simp [← hr]

theorem normalizeValue_eq_fields (v : String) :
    normalizeValue v = String.mk (joinSp (fieldsL v.toList)) := by
  unfold normalizeValue
  rw [fieldsL_trimSpace]

theorem goTrimSpace_normalizeValue (v : String) :
    goTrimSpace (normalizeValue v) = normalizeValue v := by
  unfold normalizeValue goTrimSpace
  exact congrArg String.mk (trimSpaceL_joinSp _
    (fieldsL_words_nonspace_aux (trimSpaceL v.toList).length _ le_rfl))

theorem metaHeaderName_decomp (k : String) :
    metaHeaderName k = "x-amz-meta-" ++ goToLower (replaceUnderscores k) := by
  unfold metaHeaderName goToLower replaceUnderscores
  apply congrArg String.mk
  show ("x-amz-meta-" ++ String.mk (k.toList.map _)).toList.map goToLowerChar = _
  rw [show ("x-amz-meta-" ++
      String.mk (k.toList.map (fun c => if c == '_' then '-' else c))).toList
    = "x-amz-meta-".toList ++
      k.toList.map (fun c => if c == '_' then '-' else c) from rfl]
  rw [List.map_append]
  rfl

/-- C3: the signed metadata header name is x-amz-meta- followed by the key
with underscores replaced by hyphens and lowercased; the signed header
value is the metadata value split at whitespace runs and rejoined with
single spaces (so outer whitespace is dropped and inner runs collapse),
this normal form is stable under the extra trim applied when the header
line is rendered, and the two spec scenarios evaluate as stated. -/
theorem metaHeader_name_value_normalization (k v : String) :
    metaHeaderName k = "x-amz-meta-" ++ goToLower (replaceUnderscores k) ∧
    normalizeValue v = String.mk (joinSp (fieldsL v.toList)) ∧
    goTrimSpace (normalizeValue v) = normalizeValue v ∧
    metaHeaderName "user_email" = "x-amz-meta-user-email" ∧
    normalizeValue "  extra   spaces  " = "extra spaces" := by
  refine ⟨metaHeaderName_decomp k, normalizeValue_eq_fields v,
    goTrimSpace_normalizeValue v, rfl, ?_⟩
  simp +decide [normalizeValue, trimSpaceL, trimLeft, trimRight, fieldsL, joinSp]

end SigV4
